import Mathlib

/-!
# Verification of the `euriklis-graphworld` AVL tree

This development shallowly embeds the `AVLTree` facade
(`src/unnamed/part_000`) together with the external collaborators it
delegates to (the ordered-tree host and the balance propagators, which are
not part of the sources and are therefore modelled from the specification).

A tree node carries a key (the node identifier used for ordering), an
opaque payload, and a stored integer balance factor, exactly as the
`AVLDataNode` does.  Parent links are implicit in the functional
representation: the propagation walks of the specification become the
recursive structure of the operations.
-/

namespace Graphworld

/-- A JavaScript primitive value, used to model payload truthiness for the
facade-level operations (`root` getter, id resolution in `insert`). -/
inductive JSPrim where
  | jnull : JSPrim
  | jundef : JSPrim
  | jnum (n : Int) : JSPrim
  | jstr (s : String) : JSPrim
  | jbool (b : Bool) : JSPrim
  deriving DecidableEq, Repr

/-- JavaScript truthiness of a primitive value. -/
def JSPrim.truthy : JSPrim → Bool
  | .jnull => false
  | .jundef => false
  | .jnum n => n != 0
  | .jstr s => s != ""
  | .jbool b => b

/-- The node graph of the AVL tree: each node stores its key (identifier),
its payload, its balance factor (the `balance` field of `AVLDataNode`) and
its two children.  `leaf` is the absent child (`null`). -/
inductive Tree (α : Type) where
  | leaf : Tree α
  | node (l : Tree α) (k : Nat) (d : α) (b : Int) (r : Tree α) : Tree α
  deriving DecidableEq, Repr

namespace Tree

variable {α : Type}

/-- Height of a subtree; an absent child has height `0` and a single node
height `1` (the convention is applied uniformly, as invariant I3 demands). -/
def hgt : Tree α → Nat
  | .leaf => 0
  | .node l _ _ _ r => 1 + max (hgt l) (hgt r)

/-- The balance factor recomputed from the subtrees by brute force:
height of the right subtree minus height of the left subtree. -/
def mkBal (l r : Tree α) : Int := (hgt r : Int) - (hgt l : Int)

/-- The stored balance factor at the root of a subtree (`0` for `leaf`). -/
def rootBal : Tree α → Int
  | .leaf => 0
  | .node _ _ _ b _ => b

/-- Invariant I2/P2: every node's stored balance factor equals the
brute-force recomputed factor and lies in `{-1, 0, +1}`. -/
def WB : Tree α → Prop
  | .leaf => True
  | .node l _ _ b r => WB l ∧ WB r ∧ b = mkBal l r ∧ (mkBal l r).natAbs ≤ 1

/-- Decidability of `WB`, by structural recursion. -/
def decWB : (t : Tree α) → Decidable (WB t)
  | .leaf => isTrue trivial
  | .node l _ _ _ r =>
    haveI := decWB l
    haveI := decWB r
    inferInstanceAs (Decidable (_ ∧ _ ∧ _ ∧ _))

instance : Decidable (WB t) := decWB t

/-- Rebuild a node, recomputing its stored balance factor from the actual
subtree heights.  The specification's RotationEngine prescribes exactly
this: after a rotation, "recompute balance factors for exactly the nodes
whose subtree heights changed". -/
def reNode (l : Tree α) (k : Nat) (d : α) (r : Tree α) : Tree α :=
  .node l k d (mkBal l r) r

/-- Modelled from the spec: the RotationEngine (`rebalance(N)`), absent
from the sources.  Given a subtree whose root balance is `±2`, performs
the canonical single or double rotation chosen by the child's balance
factor (§4.2) and recomputes the touched balance factors; any other input
is returned unchanged. -/
def rebalance : Tree α → Tree α
  | .node l k d b r =>
    if b = 2 then
      match r with
      | .node rl rk rd rb rr =>
        if 0 ≤ rb then
          -- single left rotation at the root
          reNode (reNode l k d rl) rk rd rr
        else
          -- right-left double rotation
          match rl with
          | .node a gk gd _ c => reNode (reNode l k d a) gk gd (reNode c rk rd rr)
          | .leaf => .node l k d b r
      | .leaf => .node l k d b r
    else if b = -2 then
      match l with
      | .node ll lk ld lb lr =>
        if lb ≤ 0 then
          -- single right rotation at the root
          reNode ll lk ld (reNode lr k d r)
        else
          -- left-right double rotation
          match lr with
          | .node a gk gd _ c => reNode (reNode ll lk ld a) gk gd (reNode c k d r)
          | .leaf => .node l k d b r
      | .leaf => .node l k d b r
    else .node l k d b r
  | .leaf => .leaf

/-- Structural insertion combined with the spec's post-insertion
propagation (`SetBalanceFactorsBackward`, absent from the sources,
modelled from §4.3): the returned flag reports whether the subtree height
grew.  Growth on the left decrements the balance factor, growth on the
right increments it; an adjusted factor of `0` stops the propagation, `±1`
continues it, and `±2` invokes the RotationEngine, which fully absorbs the
height change.  A duplicate key is rejected by the host (`null` return)
and nothing is propagated. -/
def insertGo : Tree α → Nat → α → Tree α × Bool
  | .leaf, k, d => (.node .leaf k d 0 .leaf, true)
  | .node l k0 d0 b r, k, d =>
    if k < k0 then
      let p := insertGo l k d
      if p.2 then
        let b1 := b - 1
        if b1 = 0 then (.node p.1 k0 d0 0 r, false)
        else if b1 = -2 then (rebalance (.node p.1 k0 d0 (-2) r), false)
        else (.node p.1 k0 d0 b1 r, true)
      else (.node p.1 k0 d0 b r, false)
    else if k0 < k then
      let p := insertGo r k d
      if p.2 then
        let b1 := b + 1
        if b1 = 0 then (.node l k0 d0 0 p.1, false)
        else if b1 = 2 then (rebalance (.node l k0 d0 2 p.1), false)
        else (.node l k0 d0 b1 p.1, true)
      else (.node l k0 d0 b p.1, false)
    else (.node l k0 d0 b r, false)

/-- The facade `insert` (src/unnamed/part_000, lines 65–73): wraps the
payload in a node, delegates placement to the host and, when the host
returns the inserted node, runs the post-insertion propagation; it always
returns the tree itself. -/
def insertOp (t : Tree α) (k : Nat) (d : α) : Tree α := (insertGo t k d).1

/-- Search-based membership: the path the host's `BinarySearch` walks. -/
def hasKey : Tree α → Nat → Bool
  | .leaf, _ => false
  | .node l k0 _ _ r, k =>
    if k < k0 then hasKey l k
    else if k0 < k then hasKey r k
    else true

/-- Modelled from the spec: the host's `BinarySearch`, absent from the
sources.  Locates the subtree rooted at the node holding the key. -/
def locate : Tree α → Nat → Option (Tree α)
  | .leaf, _ => none
  | .node l k0 d b r, k =>
    if k < k0 then locate l k
    else if k0 < k then locate r k
    else some (.node l k0 d b r)

/-- The in-order first (leftmost) entry of a subtree: the successor used
by the host's two-child deletion substitution. -/
def minEntry : Tree α → Option (Nat × α)
  | .leaf => none
  | .node l k d _ _ =>
    match l with
    | .leaf => some (k, d)
    | .node .. => minEntry l

/-- Whether a child slot is empty (`null`). -/
def isLeaf : Tree α → Bool
  | .leaf => true
  | .node .. => false

/-! ### Post-deletion propagation, literally as §4.3 states it

Modelled from the spec: `SetBalanceFactorsForward` and
`SetBalanceFactorsAfterDeletion` are absent from the sources; the
specification describes a single post-deletion mode for both.  Taking
§4.3 at its word: after a removal below a node, adjust the node's balance
by `+1` (left-side removal) or `-1` (right-side removal); if the adjusted
balance is `±1` the propagation continues upward, if it is `0` it stops,
and if it is `±2` the RotationEngine runs and propagation always
continues.  The third component counts the rotations performed. -/

/-- One §4.3 post-deletion step at a node whose left subtree shrank. -/
def balLshrunkSL (l1 : Tree α) (k : Nat) (d : α) (b : Int) (r : Tree α) :
    Tree α × Bool × Nat :=
  let b1 := b + 1
  if b1 = 2 then (rebalance (.node l1 k d 2 r), true, 1)
  else (.node l1 k d b1 r, b1 != 0, 0)

/-- One §4.3 post-deletion step at a node whose right subtree shrank. -/
def balRshrunkSL (l : Tree α) (k : Nat) (d : α) (b : Int) (r1 : Tree α) :
    Tree α × Bool × Nat :=
  let b1 := b - 1
  if b1 = -2 then (rebalance (.node l k d (-2) r1), true, 1)
  else (.node l k d b1 r1, b1 != 0, 0)

/-- Modelled from the spec: removal of the in-order minimum of the
subtree `node ll lk ld lb lr` — the host's successor extraction for a
two-child deletion — followed by the §4.3 propagation along the walked
path.  Returns the extracted entry, the remaining subtree, the continue
flag and the rotation count. -/
def delMinSL : Tree α → Nat → α → Int → Tree α → (Nat × α) × Tree α × Bool × Nat
  | .leaf, k, d, _, r => ((k, d), r, true, 0)
  | .node ll lk ld lb lr, k, d, b, r =>
    let q := delMinSL ll lk ld lb lr
    if q.2.2.1 then
      let s := balLshrunkSL q.2.1 k d b r
      (q.1, s.1, s.2.1, q.2.2.2 + s.2.2)
    else (q.1, .node q.2.1 k d b r, false, q.2.2.2)

/-- The deletion pipeline of the facade `delete`/`deleteNode`
(src/unnamed/part_000, lines 85–95 and 108–121) over the spec-modelled
host: locate the key, physically unlink (substituting the in-order
successor and overwriting the located node's key and payload when it has
two children), then propagate per §4.3.  Returns the entry held by the
located node when the operation returns (the facade reads `node.data`
after the unlink), the new tree, the continue flag and the rotation
count. -/
def deleteSL : Tree α → Nat → Option (Nat × α) × Tree α × Bool × Nat
  | .leaf, _ => (none, .leaf, false, 0)
  | .node l k0 d0 b r, k =>
    if k < k0 then
      let q := deleteSL l k
      if q.2.2.1 then
        let s := balLshrunkSL q.2.1 k0 d0 b r
        (q.1, s.1, s.2.1, q.2.2.2 + s.2.2)
      else (q.1, .node q.2.1 k0 d0 b r, false, q.2.2.2)
    else if k0 < k then
      let q := deleteSL r k
      if q.2.2.1 then
        let s := balRshrunkSL l k0 d0 b q.2.1
        (q.1, s.1, s.2.1, q.2.2.2 + s.2.2)
      else (q.1, .node l k0 d0 b q.2.1, false, q.2.2.2)
    else
      match l, r with
      | .leaf, _ => (some (k0, d0), r, true, 0)
      | .node .., .leaf => (some (k0, d0), l, true, 0)
      | .node .., .node rl rk rd rb rr =>
        let q := delMinSL rl rk rd rb rr
        if q.2.2.1 then
          let s := balRshrunkSL l q.1.1 q.1.2 b q.2.1
          (some q.1, s.1, s.2.1, q.2.2.2 + s.2.2)
        else (some q.1, .node l q.1.1 q.1.2 b q.2.1, false, q.2.2.2)

/-! ### Post-deletion propagation with the height-tracking stop rules

The same deletion pipeline, with the two §4.3 stop rules swapped to the
ones that actually track the subtree height: after the adjustment, `0`
(the removal came from the taller side) means the height shrank and the
propagation continues, `±1` (it came from the shorter or an equal side)
means the height is unchanged and the propagation stops, and after a
rotation the propagation continues exactly when the rotation lowered the
subtree height, i.e. when the new subtree root's balance is `0`. -/

/-- Height-tracking post-deletion step, left subtree shrank. -/
def balLshrunk (l1 : Tree α) (k : Nat) (d : α) (b : Int) (r : Tree α) :
    Tree α × Bool :=
  let b1 := b + 1
  if b1 = 2 then
    let s := rebalance (.node l1 k d 2 r)
    (s, rootBal s == 0)
  else (.node l1 k d b1 r, b1 == 0)

/-- Height-tracking post-deletion step, right subtree shrank. -/
def balRshrunk (l : Tree α) (k : Nat) (d : α) (b : Int) (r1 : Tree α) :
    Tree α × Bool :=
  let b1 := b - 1
  if b1 = -2 then
    let s := rebalance (.node l k d (-2) r1)
    (s, rootBal s == 0)
  else (.node l k d b1 r1, b1 == 0)

/-- Successor extraction with the height-tracking stop rules. -/
def delMinStd : Tree α → Nat → α → Int → Tree α → (Nat × α) × Tree α × Bool
  | .leaf, k, d, _, r => ((k, d), r, true)
  | .node ll lk ld lb lr, k, d, b, r =>
    let q := delMinStd ll lk ld lb lr
    if q.2.2 then
      let s := balLshrunk q.2.1 k d b r
      (q.1, s.1, s.2)
    else (q.1, .node q.2.1 k d b r, false)

/-- Deletion with the height-tracking stop rules. -/
def deleteStd : Tree α → Nat → Tree α × Bool
  | .leaf, _ => (.leaf, false)
  | .node l k0 d0 b r, k =>
    if k < k0 then
      let q := deleteStd l k
      if q.2 then balLshrunk q.1 k0 d0 b r
      else (.node q.1 k0 d0 b r, false)
    else if k0 < k then
      let q := deleteStd r k
      if q.2 then balRshrunk l k0 d0 b q.1
      else (.node l k0 d0 b q.1, false)
    else
      match l, r with
      | .leaf, _ => (r, true)
      | .node .., .leaf => (l, true)
      | .node .., .node rl rk rd rb rr =>
        let q := delMinStd rl rk rd rb rr
        if q.2.2 then balRshrunk l q.1.1 q.1.2 b q.2.1
        else (.node l q.1.1 q.1.2 b q.2.1, false)

/-- The facade `delete` (src/unnamed/part_000, lines 85–95): locate by
the value comparator, return `null` on a miss, otherwise unlink, run the
post-deletion propagation and return the located node's payload as it
stands when the operation returns. -/
def deleteOp (t : Tree α) (k : Nat) : Option α × Tree α :=
  let q := deleteSL t k
  (q.1.map (fun p => p.2), q.2.1)

/-- Modelled from the spec: the host's `binarySearchNode`, absent from
the sources — a three-way locator callback against nodes (`-1` when the
current node is below the target, so the walk turns right; `1` above, so
it turns left; `0` on the target).  Returns the located node's key. -/
def binSearchNode : Tree α → (Nat → α → Int) → Option Nat
  | .leaf, _ => none
  | .node l k d _ r, cb =>
    let c := cb k d
    if c = 0 then some k
    else if c < 0 then binSearchNode r cb
    else binSearchNode l cb

/-- The object handed back by `deleteNode`: the located node after the
facade cleared its parent, children and balance fields
(src/unnamed/part_000, lines 115–118). -/
structure DetachedNode (α : Type) where
  key : Nat
  data : α
  balance : Int
  prev : Option Nat
  left : Option (Tree α)
  right : Option (Tree α)
  deriving Repr, DecidableEq

/-- The facade `deleteNode` (src/unnamed/part_000, lines 108–121): locate
by the node callback, return `null` on a miss; otherwise unlink, run the
post-deletion propagation, clear the removed node's parent, children and
balance fields and hand it back. -/
def deleteNodeOp (t : Tree α) (cb : Nat → α → Int) :
    Option (DetachedNode α) × Tree α :=
  match binSearchNode t cb with
  | none => (none, t)
  | some k =>
    let q := deleteSL t k
    match q.1 with
    | some p => (some ⟨p.1, p.2, 0, none, none, none⟩, q.2.1)
    | none => (none, q.2.1)

/-! ### The breadth-first copy -/

/-- Number of nodes of a subtree. -/
def size : Tree α → Nat
  | .leaf => 0
  | .node l _ _ _ r => 1 + size l + size r

/-- Total number of nodes in a queue of subtrees. -/
def sizes (q : List (Tree α)) : Nat := (q.map size).sum

/-- Modelled from the spec: the host's breadth-first traversal queue —
each visited node contributes its entry and enqueues its children. -/
def bfsAux : List (Tree α) → List (Nat × α)
  | [] => []
  | .leaf :: rest => bfsAux rest
  | .node l k d _ r :: rest => (k, d) :: bfsAux (rest ++ [l, r])
  termination_by q => 2 * sizes q + q.length
  decreasing_by
  all_goals
    simp only [sizes, size, List.map_cons, List.sum_cons, List.map_append,
      List.sum_append, List.length_cons, List.length_append, List.length_nil,
      List.sum_nil, List.map_nil]
    omega

/-- The level-order listing of the tree's entries (`BFS`). -/
def bfsList (t : Tree α) : List (Nat × α) := bfsAux [t]

/-- The facade `copy` (src/unnamed/part_000, lines 130–139): traverse the
source breadth-first and re-insert every payload/id pair, through the
host insertion and the post-insertion propagation, into a fresh tree. -/
def copyOp (t : Tree α) : Tree α :=
  (bfsList t).foldl (fun acc p => insertOp acc p.1 p.2) .leaf

/-- The in-order listing of the tree's entries. -/
def inorder : Tree α → List (Nat × α)
  | .leaf => []
  | .node l k d _ r => inorder l ++ (k, d) :: inorder r

/-- Whether the key respects an optional strict lower bound. -/
def okLo : Option Nat → Nat → Bool
  | none, _ => true
  | some x, k => x < k

/-- Whether the key respects an optional strict upper bound. -/
def okHi : Option Nat → Nat → Bool
  | none, _ => true
  | some y, k => k < y

/-- BST-order bounds: every key strictly between the optional bounds. -/
def Bnd (lo hi : Option Nat) : Tree α → Prop
  | .leaf => True
  | .node l k _ _ r =>
    okLo lo k = true ∧ okHi hi k = true ∧ Bnd lo (some k) l ∧ Bnd (some k) hi r

/-- Invariant I1: the binary-search-tree order. -/
def BST (t : Tree α) : Prop := Bnd none none t

/-- Decidability of `Bnd`, by structural recursion. -/
def decBnd : (lo hi : Option Nat) → (t : Tree α) → Decidable (Bnd lo hi t)
  | _, _, .leaf => isTrue trivial
  | lo, hi, .node l k _ _ r =>
    haveI := decBnd lo (some k) l
    haveI := decBnd (some k) hi r
    inferInstanceAs (Decidable (_ ∧ _ ∧ _ ∧ _))

instance : Decidable (Bnd lo hi t) := decBnd lo hi t

instance : Decidable (BST t) := decBnd none none t

end Tree

/-! ### Facade-level JavaScript behaviours -/

open Tree in
/-- The facade `root` getter (src/unnamed/part_000, lines 38–40):
`this._root?.data || null` — the root payload when the tree is non-empty
and the payload is truthy, `null` otherwise. -/
def rootGetter : Tree JSPrim → JSPrim
  | .leaf => .jnull
  | .node _ _ d _ _ => if d.truthy then d else .jnull

/-- A payload together with its optional `id` property (`jundef` when the
payload carries none). -/
structure Payload where
  val : JSPrim
  pid : JSPrim
  deriving DecidableEq, Repr

/-- The id resolution at the head of the facade `insert`
(src/unnamed/part_000, line 66): `if (data?.id) id = data.id` — the
payload's own id replaces the explicit argument whenever it is truthy. -/
def resolvedId (p : Payload) (id : JSPrim) : JSPrim :=
  if p.pid.truthy then p.pid else id

/-- A single client operation on the tree. -/
inductive Op where
  | ins (k : Nat) : Op
  | del (k : Nat) : Op
  deriving DecidableEq, Repr

/-- Run a list of operations from the empty tree through the facade with
the §4.3-literal post-deletion propagation. -/
def runSL (ops : List Op) : Tree Unit :=
  ops.foldl
    (fun t op =>
      match op with
      | .ins k => Tree.insertOp t k ()
      | .del k => (Tree.deleteSL t k).2.1)
    .leaf

/-- Run a list of operations from the empty tree with the
height-tracking post-deletion propagation. -/
def runStd (ops : List Op) : Tree Unit :=
  ops.foldl
    (fun t op =>
      match op with
      | .ins k => Tree.insertOp t k ()
      | .del k => (Tree.deleteStd t k).1)
    .leaf

/-! ## Theorems -/

namespace Tree

variable {α : Type}

theorem hgt_node (l : Tree α) (k : Nat) (d : α) (b : Int) (r : Tree α) :
    hgt (.node l k d b r) = 1 + max (hgt l) (hgt r) := rfl

theorem WB_node {l r : Tree α} {k : Nat} {d : α} {b : Int} :
    WB (.node l k d b r) ↔
      WB l ∧ WB r ∧ b = mkBal l r ∧ (mkBal l r).natAbs ≤ 1 := Iff.rfl

theorem hgt_eq_zero {t : Tree α} (h : hgt t = 0) : t = .leaf := by
  cases t with
  | leaf => rfl
  | node l k d b r => simp [hgt] at h

/-- The RotationEngine on a `+2` node with height-consistent, in-range
subtrees: the result is well balanced, its height is the right child's
height except in the right-child-balance-`0` case (where it is one more),
and its root balance is `0` exactly when the right child's was not. -/
theorem rebal_p2 {l r : Tree α} (k : Nat) (d : α) (hl : WB l) (hr : WB r)
    (hb : mkBal l r = 2) :
    WB (rebalance (.node l k d 2 r)) ∧
    hgt (rebalance (.node l k d 2 r)) =
      (if rootBal r = 0 then hgt r + 1 else hgt r) ∧
    (rootBal (rebalance (.node l k d 2 r)) = 0 ↔ rootBal r ≠ 0) := by
  match r with
  | .leaf => exfalso; simp only [mkBal, hgt] at hb; omega
  | .node rl rk rd rb rr =>
    obtain ⟨w1, w2, e1, a1⟩ := hr
    by_cases hrb : 0 ≤ rb
    · have hre : rebalance (.node l k d 2 (.node rl rk rd rb rr)) =
          reNode (reNode l k d rl) rk rd rr := by
        simp [rebalance, hrb]
      rw [hre]
      refine ⟨⟨⟨hl, w1, rfl, ?_⟩, w2, rfl, ?_⟩, ?_, ?_⟩ <;>
      · simp only [reNode, rootBal, mkBal, hgt] at e1 a1 hb ⊢
        first
        | (split_ifs <;> omega)
        | omega
    · match rl, w1 with
      | .leaf, _ =>
        exfalso
        simp only [mkBal, hgt] at e1 a1
        omega
      | .node a gk gd gb c, ⟨wa, wc, eg, ag⟩ =>
        have hre : rebalance (.node l k d 2
              (.node (.node a gk gd gb c) rk rd rb rr)) =
            reNode (reNode l k d a) gk gd (reNode c rk rd rr) := by
          simp [rebalance, hrb]
        rw [hre]
        refine ⟨⟨⟨hl, wa, rfl, ?_⟩, ⟨wc, w2, rfl, ?_⟩, rfl, ?_⟩, ?_, ?_⟩ <;>
        · simp only [reNode, rootBal, mkBal, hgt] at e1 a1 eg ag hb ⊢
          first
          | (split_ifs <;> omega)
          | omega

/-- Mirror of `rebal_p2` for a `-2` node. -/
theorem rebal_m2 {l r : Tree α} (k : Nat) (d : α) (hl : WB l) (hr : WB r)
    (hb : mkBal l r = -2) :
    WB (rebalance (.node l k d (-2) r)) ∧
    hgt (rebalance (.node l k d (-2) r)) =
      (if rootBal l = 0 then hgt l + 1 else hgt l) ∧
    (rootBal (rebalance (.node l k d (-2) r)) = 0 ↔ rootBal l ≠ 0) := by
  match l with
  | .leaf => exfalso; simp only [mkBal, hgt] at hb; omega
  | .node ll lk ld lb lr =>
    obtain ⟨w1, w2, e1, a1⟩ := hl
    by_cases hlb : lb ≤ 0
    · have hre : rebalance (.node (.node ll lk ld lb lr) k d (-2) r) =
          reNode ll lk ld (reNode lr k d r) := by
        simp [rebalance, hlb]
      rw [hre]
      refine ⟨⟨w1, ⟨w2, hr, rfl, ?_⟩, rfl, ?_⟩, ?_, ?_⟩ <;>
      · simp only [reNode, rootBal, mkBal, hgt] at e1 a1 hb ⊢
        first
        | (split_ifs <;> omega)
        | omega
    · match lr, w2 with
      | .leaf, _ =>
        exfalso
        simp only [mkBal, hgt] at e1 a1
        omega
      | .node a gk gd gb c, ⟨wa, wc, eg, ag⟩ =>
        have hre : rebalance (.node
              (.node ll lk ld lb (.node a gk gd gb c)) k d (-2) r) =
            reNode (reNode ll lk ld a) gk gd (reNode c k d r) := by
          simp [rebalance, hlb]
        rw [hre]
        refine ⟨⟨⟨w1, wa, rfl, ?_⟩, ⟨wc, hr, rfl, ?_⟩, rfl, ?_⟩, ?_, ?_⟩ <;>
        · simp only [reNode, rootBal, mkBal, hgt] at e1 a1 eg ag hb ⊢
          first
          | (split_ifs <;> omega)
          | omega

theorem ite_flag_false : (if (false = true) then (1 : Nat) else 0) = 0 := rfl

theorem ite_flag_true : (if (true = true) then (1 : Nat) else 0) = 1 := rfl

/-- The post-insertion pipeline on a well-balanced tree: the result is
well balanced, the height grows by one exactly when the returned flag
says so, and a subtree that reports growth either has a nonzero root
balance or is the single fresh leaf node. -/
theorem insertGo_spec (k : Nat) (d : α) (t : Tree α) (hw : WB t) :
    WB (insertGo t k d).1 ∧
    hgt (insertGo t k d).1 = hgt t + (if (insertGo t k d).2 then 1 else 0) ∧
    ((insertGo t k d).2 = true →
      rootBal (insertGo t k d).1 ≠ 0 ∨ hgt (insertGo t k d).1 = 1) := by
  induction t with
  | leaf =>
    refine ⟨⟨trivial, trivial, rfl, by simp [mkBal, hgt]⟩, by simp [insertGo, hgt], ?_⟩
    intro _
    right
    rfl
  | node l k0 d0 b r ihl ihr =>
    obtain ⟨wl, wr, e, a⟩ := hw
    simp only [mkBal] at e a
    by_cases h1 : k < k0
    · obtain ⟨W1, H1, G1⟩ := ihl wl
      cases hp : (insertGo l k d).2 with
      | false =>
        rw [hp] at H1; simp at H1
        have hins : insertGo (.node l k0 d0 b r) k d =
            (.node (insertGo l k d).1 k0 d0 b r, false) := by
          simp [insertGo, h1, hp]
        rw [hins]
        refine ⟨⟨W1, wr, ?_, ?_⟩, ?_, by simp⟩
        · simp only [mkBal, H1]; omega
        · simp only [mkBal, H1]; omega
        · simp [hgt, H1]
      | true =>
        rw [hp] at H1 G1; simp at H1
        specialize G1 rfl
        obtain ⟨hbb1, hbb2⟩ : -1 ≤ b ∧ b ≤ 1 := by omega
        interval_cases b
        · -- b = -1 : the left side was already taller; rotation
          have hins : insertGo (.node l k0 d0 (-1) r) k d =
              (rebalance (.node (insertGo l k d).1 k0 d0 (-2) r), false) := by
            simp [insertGo, h1, hp]
          rw [hins]
          have hnz : rootBal (insertGo l k d).1 ≠ 0 := by
            rcases G1 with h | h
            · exact h
            · exfalso
              have : hgt l = 0 := by omega
              rw [hgt_eq_zero this] at e
              simp only [hgt] at e
              omega
          have hb2 : mkBal (insertGo l k d).1 r = -2 := by
            simp only [mkBal, H1]; omega
          obtain ⟨Wr, Hr, _⟩ := rebal_m2 k0 d0 W1 wr hb2
          rw [if_neg hnz] at Hr
          refine ⟨Wr, ?_, by simp⟩
          simp only [Hr, H1, hgt, ite_flag_false]
          omega
        · -- b = 0 : height grows, propagation continues
          have hins : insertGo (.node l k0 d0 0 r) k d =
              (.node (insertGo l k d).1 k0 d0 (-1) r, true) := by
            simp [insertGo, h1, hp]
          rw [hins]
          refine ⟨⟨W1, wr, ?_, ?_⟩, ?_, ?_⟩
          · simp only [mkBal, H1]; omega
          · simp only [mkBal, H1]; omega
          · simp only [hgt, H1, ite_flag_false, ite_flag_true, eq_self_iff_true, if_true, if_false]; omega
          · intro _
            left
            simp [rootBal]
        · -- b = 1 : the insertion evens the node out; propagation stops
          have hins : insertGo (.node l k0 d0 1 r) k d =
              (.node (insertGo l k d).1 k0 d0 0 r, false) := by
            simp [insertGo, h1, hp]
          rw [hins]
          refine ⟨⟨W1, wr, ?_, ?_⟩, ?_, by simp⟩
          · simp only [mkBal, H1]; omega
          · simp only [mkBal, H1]; omega
          · simp only [hgt, H1, ite_flag_false, ite_flag_true, eq_self_iff_true, if_true, if_false]; omega
    · by_cases h2 : k0 < k
      · obtain ⟨W2, H2, G2⟩ := ihr wr
        cases hp : (insertGo r k d).2 with
        | false =>
          rw [hp] at H2; simp at H2
          have hins : insertGo (.node l k0 d0 b r) k d =
              (.node l k0 d0 b (insertGo r k d).1, false) := by
            simp [insertGo, h1, h2, hp]
          rw [hins]
          refine ⟨⟨wl, W2, ?_, ?_⟩, ?_, by simp⟩
          · simp only [mkBal, H2]; omega
          · simp only [mkBal, H2]; omega
          · simp [hgt, H2]
        | true =>
          rw [hp] at H2 G2; simp at H2
          specialize G2 rfl
          obtain ⟨hbb1, hbb2⟩ : -1 ≤ b ∧ b ≤ 1 := by omega
          interval_cases b
          · -- b = -1 : the insertion evens the node out; propagation stops
            have hins : insertGo (.node l k0 d0 (-1) r) k d =
                (.node l k0 d0 0 (insertGo r k d).1, false) := by
              simp [insertGo, h1, h2, hp]
            rw [hins]
            refine ⟨⟨wl, W2, ?_, ?_⟩, ?_, by simp⟩
            · simp only [mkBal, H2]; omega
            · simp only [mkBal, H2]; omega
            · simp only [hgt, H2, ite_flag_false, ite_flag_true, eq_self_iff_true, if_true, if_false]; omega
          · -- b = 0 : height grows, propagation continues
            have hins : insertGo (.node l k0 d0 0 r) k d =
                (.node l k0 d0 1 (insertGo r k d).1, true) := by
              simp [insertGo, h1, h2, hp]
            rw [hins]
            refine ⟨⟨wl, W2, ?_, ?_⟩, ?_, ?_⟩
            · simp only [mkBal, H2]; omega
            · simp only [mkBal, H2]; omega
            · simp only [hgt, H2, ite_flag_false, ite_flag_true, eq_self_iff_true, if_true, if_false]; omega
            · intro _
              left
              simp [rootBal]
          · -- b = 1 : the right side was already taller; rotation
            have hins : insertGo (.node l k0 d0 1 r) k d =
                (rebalance (.node l k0 d0 2 (insertGo r k d).1), false) := by
              simp [insertGo, h1, h2, hp]
            rw [hins]
            have hnz : rootBal (insertGo r k d).1 ≠ 0 := by
              rcases G2 with h | h
              · exact h
              · exfalso
                have : hgt r = 0 := by omega
                rw [hgt_eq_zero this] at e
                simp only [hgt] at e
                omega
            have hb2 : mkBal l (insertGo r k d).1 = 2 := by
              simp only [mkBal, H2]; omega
            obtain ⟨Wr, Hr, _⟩ := rebal_p2 k0 d0 wl W2 hb2
            rw [if_neg hnz] at Hr
            refine ⟨Wr, ?_, by simp⟩
            simp only [Hr, H2, hgt, ite_flag_false]
            omega
      · have hins : insertGo (.node l k0 d0 b r) k d =
            (.node l k0 d0 b r, false) := by
          simp [insertGo, h1, h2]
        rw [hins]
        exact ⟨⟨wl, wr, by simp only [mkBal]; omega, by simp only [mkBal]; omega⟩,
          by simp, by simp⟩

/-- The height-tracking left-shrunk step restores balance: if the node's
stored balance was consistent with the left subtree before it lost one
level of height, the step returns a well-balanced subtree and reports
whether the node's height shrank. -/
theorem balLshrunk_spec {l1 r : Tree α} (k : Nat) (d : α) (b : Int)
    (hw1 : WB l1) (hwr : WB r)
    (hb : b = (hgt r : Int) - ((hgt l1 : Int) + 1))
    (h1 : -1 ≤ b) (h2 : b ≤ 1) :
    WB (balLshrunk l1 k d b r).1 ∧
    1 + max (hgt l1 + 1) (hgt r) =
      hgt (balLshrunk l1 k d b r).1 +
        (if (balLshrunk l1 k d b r).2 then 1 else 0) := by
  by_cases hb2 : b + 1 = 2
  · have hbe : b = 1 := by omega
    subst hbe
    have he : balLshrunk l1 k d 1 r =
        (rebalance (.node l1 k d 2 r),
         rootBal (rebalance (.node l1 k d 2 r)) == 0) := by
      simp [balLshrunk]
    rw [he]
    have hmb : mkBal l1 r = 2 := by simp only [mkBal]; omega
    obtain ⟨W, Hgt, Iff⟩ := rebal_p2 k d hw1 hwr hmb
    refine ⟨W, ?_⟩
    by_cases hs : rootBal r = 0
    · rw [if_pos hs] at Hgt
      have hif : ((rootBal (rebalance (.node l1 k d 2 r)) == 0) : Bool) = false := by
        have hne : rootBal (rebalance (.node l1 k d 2 r)) ≠ 0 :=
          fun hcon => (Iff.mp hcon) hs
        simp [hne]
      rw [hif]
      simp only [ite_flag_false, Hgt]
      omega
    · rw [if_neg hs] at Hgt
      have hif : ((rootBal (rebalance (.node l1 k d 2 r)) == 0) : Bool) = true := by
        simp [Iff.mpr hs]
      rw [hif]
      simp only [ite_flag_true, Hgt, eq_self_iff_true, if_true]
      omega
  · have he : balLshrunk l1 k d b r =
        (.node l1 k d (b + 1) r, b + 1 == 0) := by
      simp [balLshrunk, hb2]
    rw [he]
    refine ⟨⟨hw1, hwr, by simp only [mkBal]; omega, by simp only [mkBal]; omega⟩, ?_⟩
    by_cases h0 : b + 1 = 0
    · have hif : ((b + 1 == 0) : Bool) = true := by simp [h0]
      rw [hif]
      simp only [ite_flag_true, hgt, eq_self_iff_true, if_true]
      omega
    · have hif : ((b + 1 == 0) : Bool) = false := by simp [h0]
      rw [hif]
      simp only [ite_flag_false, hgt]
      omega

/-- Mirror of `balLshrunk_spec` for a right subtree that shrank. -/
theorem balRshrunk_spec {l r1 : Tree α} (k : Nat) (d : α) (b : Int)
    (hwl : WB l) (hw1 : WB r1)
    (hb : b = ((hgt r1 : Int) + 1) - (hgt l : Int))
    (h1 : -1 ≤ b) (h2 : b ≤ 1) :
    WB (balRshrunk l k d b r1).1 ∧
    1 + max (hgt l) (hgt r1 + 1) =
      hgt (balRshrunk l k d b r1).1 +
        (if (balRshrunk l k d b r1).2 then 1 else 0) := by
  by_cases hb2 : b - 1 = -2
  · have hbe : b = -1 := by omega
    subst hbe
    have he : balRshrunk l k d (-1) r1 =
        (rebalance (.node l k d (-2) r1),
         rootBal (rebalance (.node l k d (-2) r1)) == 0) := by
      simp [balRshrunk]
    rw [he]
    have hmb : mkBal l r1 = -2 := by simp only [mkBal]; omega
    obtain ⟨W, Hgt, Iff⟩ := rebal_m2 k d hwl hw1 hmb
    refine ⟨W, ?_⟩
    by_cases hs : rootBal l = 0
    · rw [if_pos hs] at Hgt
      have hif : ((rootBal (rebalance (.node l k d (-2) r1)) == 0) : Bool) = false := by
        have hne : rootBal (rebalance (.node l k d (-2) r1)) ≠ 0 :=
          fun hcon => (Iff.mp hcon) hs
        simp [hne]
      rw [hif]
      simp only [ite_flag_false, Hgt]
      omega
    · rw [if_neg hs] at Hgt
      have hif : ((rootBal (rebalance (.node l k d (-2) r1)) == 0) : Bool) = true := by
        simp [Iff.mpr hs]
      rw [hif]
      simp only [ite_flag_true, Hgt, eq_self_iff_true, if_true]
      omega
  · have he : balRshrunk l k d b r1 =
        (.node l k d (b - 1) r1, b - 1 == 0) := by
      simp [balRshrunk, hb2]
    rw [he]
    refine ⟨⟨hwl, hw1, by simp only [mkBal]; omega, by simp only [mkBal]; omega⟩, ?_⟩
    by_cases h0 : b - 1 = 0
    · have hif : ((b - 1 == 0) : Bool) = true := by simp [h0]
      rw [hif]
      simp only [ite_flag_true, hgt, eq_self_iff_true, if_true]
      omega
    · have hif : ((b - 1 == 0) : Bool) = false := by simp [h0]
      rw [hif]
      simp only [ite_flag_false, hgt]
      omega

/-- Extracting the in-order minimum with the height-tracking rules keeps
the remaining subtree well balanced and tracks the height change. -/
theorem delMinStd_spec : ∀ (ll : Tree α) (lk : Nat) (ld : α) (lb : Int)
    (lr : Tree α), WB (.node ll lk ld lb lr) →
    WB (delMinStd ll lk ld lb lr).2.1 ∧
    hgt (.node ll lk ld lb lr) =
      hgt (delMinStd ll lk ld lb lr).2.1 +
        (if (delMinStd ll lk ld lb lr).2.2 then 1 else 0)
  | .leaf, lk, ld, lb, lr, hw => by
    obtain ⟨_, w2, e, a⟩ := hw
    simp only [mkBal, hgt] at e a
    refine ⟨w2, ?_⟩
    simp [delMinStd, hgt]
    omega
  | .node a ak ad ab c, lk, ld, lb, lr, hw => by
    obtain ⟨w1, w2, e, ha⟩ := hw
    obtain ⟨Wq, Hq⟩ := delMinStd_spec a ak ad ab c w1
    simp only [mkBal, hgt] at e ha
    cases hf : (delMinStd a ak ad ab c).2.2 with
    | true =>
      rw [hf] at Hq; simp only [ite_flag_true, eq_self_iff_true, if_true] at Hq
      have he : delMinStd (.node a ak ad ab c) lk ld lb lr =
          ((delMinStd a ak ad ab c).1,
           (balLshrunk (delMinStd a ak ad ab c).2.1 lk ld lb lr).1,
           (balLshrunk (delMinStd a ak ad ab c).2.1 lk ld lb lr).2) := by
        simp [delMinStd, hf]
      rw [he]
      have hb : lb = (hgt lr : Int) -
          ((hgt (delMinStd a ak ad ab c).2.1 : Int) + 1) := by
        simp only [hgt] at Hq ⊢
        omega
      obtain ⟨W, H⟩ := balLshrunk_spec lk ld lb Wq w2 hb (by omega) (by omega)
      refine ⟨W, ?_⟩
      simp only [hgt] at H Hq e ha ⊢
      omega
    | false =>
      rw [hf] at Hq; simp only [ite_flag_false, hgt] at Hq
      have he : delMinStd (.node a ak ad ab c) lk ld lb lr =
          ((delMinStd a ak ad ab c).1,
           .node (delMinStd a ak ad ab c).2.1 lk ld lb lr, false) := by
        simp [delMinStd, hf]
      rw [he]
      refine ⟨⟨Wq, w2, ?_, ?_⟩, ?_⟩
      · simp only [mkBal]; omega
      · simp only [mkBal]; omega
      · simp only [hgt, ite_flag_false]
        omega

/-- The height-tracking deletion pipeline preserves the balance
invariant and tracks the height change. -/
theorem deleteStd_spec (k : Nat) : ∀ (t : Tree α), WB t →
    WB (deleteStd t k).1 ∧
    hgt t = hgt (deleteStd t k).1 + (if (deleteStd t k).2 then 1 else 0)
  | .leaf, _ => by
    refine ⟨trivial, ?_⟩
    simp [deleteStd, hgt]
  | .node l k0 d0 b r, hw => by
    obtain ⟨wl, wr, e, ha⟩ := hw
    simp only [mkBal] at e ha
    by_cases h1 : k < k0
    · obtain ⟨Wq, Hq⟩ := deleteStd_spec k l wl
      cases hf : (deleteStd l k).2 with
      | true =>
        rw [hf] at Hq; simp only [ite_flag_true, eq_self_iff_true, if_true] at Hq
        have he : deleteStd (.node l k0 d0 b r) k =
            balLshrunk (deleteStd l k).1 k0 d0 b r := by
          simp [deleteStd, h1, hf]
        rw [he]
        have hb : b = (hgt r : Int) - ((hgt (deleteStd l k).1 : Int) + 1) := by
          omega
        obtain ⟨W, H⟩ := balLshrunk_spec k0 d0 b Wq wr hb (by omega) (by omega)
        refine ⟨W, ?_⟩
        simp only [hgt] at H ⊢
        omega
      | false =>
        rw [hf] at Hq; simp only [ite_flag_false] at Hq
        have he : deleteStd (.node l k0 d0 b r) k =
            (.node (deleteStd l k).1 k0 d0 b r, false) := by
          simp [deleteStd, h1, hf]
        rw [he]
        refine ⟨⟨Wq, wr, by simp only [mkBal]; omega, by simp only [mkBal]; omega⟩, ?_⟩
        simp only [hgt, ite_flag_false]
        omega
    · by_cases h2 : k0 < k
      · obtain ⟨Wq, Hq⟩ := deleteStd_spec k r wr
        cases hf : (deleteStd r k).2 with
        | true =>
          rw [hf] at Hq; simp only [ite_flag_true, eq_self_iff_true, if_true] at Hq
          have he : deleteStd (.node l k0 d0 b r) k =
              balRshrunk l k0 d0 b (deleteStd r k).1 := by
            simp [deleteStd, h1, h2, hf]
          rw [he]
          have hb : b = ((hgt (deleteStd r k).1 : Int) + 1) - (hgt l : Int) := by
            omega
          obtain ⟨W, H⟩ := balRshrunk_spec k0 d0 b wl Wq hb (by omega) (by omega)
          refine ⟨W, ?_⟩
          simp only [hgt] at H ⊢
          omega
        | false =>
          rw [hf] at Hq; simp only [ite_flag_false] at Hq
          have he : deleteStd (.node l k0 d0 b r) k =
              (.node l k0 d0 b (deleteStd r k).1, false) := by
            simp [deleteStd, h1, h2, hf]
          rw [he]
          refine ⟨⟨wl, Wq, by simp only [mkBal]; omega, by simp only [mkBal]; omega⟩, ?_⟩
          simp only [hgt, ite_flag_false]
          omega
      · match l, wl, e, ha with
        | .leaf, _, e, ha =>
          have he : deleteStd (.node .leaf k0 d0 b r) k = (r, true) := by
            simp [deleteStd, h1, h2]
          rw [he]
          refine ⟨wr, ?_⟩
          simp only [hgt, ite_flag_true, eq_self_iff_true, if_true] at e ha ⊢
          omega
        | .node al alk ald alb alr, wl, e, ha =>
          match r, wr, e, ha with
          | .leaf, _, e, ha =>
            have he : deleteStd
                (.node (.node al alk ald alb alr) k0 d0 b .leaf) k =
                (.node al alk ald alb alr, true) := by
              simp [deleteStd, h1, h2]
            rw [he]
            refine ⟨wl, ?_⟩
            simp only [hgt, ite_flag_true, eq_self_iff_true, if_true] at e ha ⊢
            omega
          | .node rl rk rd rb rr, wr, e, ha =>
            obtain ⟨Wq, Hq⟩ := delMinStd_spec rl rk rd rb rr wr
            cases hf : (delMinStd rl rk rd rb rr).2.2 with
            | true =>
              rw [hf] at Hq; simp only [ite_flag_true, eq_self_iff_true, if_true] at Hq
              have he : deleteStd (.node (.node al alk ald alb alr) k0 d0 b
                    (.node rl rk rd rb rr)) k =
                  balRshrunk (.node al alk ald alb alr)
                    (delMinStd rl rk rd rb rr).1.1
                    (delMinStd rl rk rd rb rr).1.2 b
                    (delMinStd rl rk rd rb rr).2.1 := by
                simp [deleteStd, h1, h2, hf]
              rw [he]
              have hb : b = ((hgt (delMinStd rl rk rd rb rr).2.1 : Int) + 1) -
                  (hgt (.node al alk ald alb alr) : Int) := by
                simp only [hgt] at Hq e ⊢
                omega
              obtain ⟨W, H⟩ := balRshrunk_spec
                (delMinStd rl rk rd rb rr).1.1 (delMinStd rl rk rd rb rr).1.2 b
                wl Wq hb (by omega) (by omega)
              refine ⟨W, ?_⟩
              simp only [hgt] at H Hq e ha ⊢
              omega
            | false =>
              rw [hf] at Hq; simp only [ite_flag_false, hgt] at Hq
              have he : deleteStd (.node (.node al alk ald alb alr) k0 d0 b
                    (.node rl rk rd rb rr)) k =
                  (.node (.node al alk ald alb alr)
                    (delMinStd rl rk rd rb rr).1.1
                    (delMinStd rl rk rd rb rr).1.2 b
                    (delMinStd rl rk rd rb rr).2.1, false) := by
                simp [deleteStd, h1, h2, hf]
              rw [he]
              refine ⟨⟨wl, Wq, ?_, ?_⟩, ?_⟩
              · simp only [mkBal, hgt] at e ⊢
                omega
              · simp only [mkBal, hgt] at e ha ⊢
                omega
              · simp only [hgt, ite_flag_false] at e ha ⊢
                omega

/-- Insertion through the facade preserves the balance invariant. -/
theorem insertOp_WB (t : Tree α) (k : Nat) (d : α) (h : WB t) :
    WB (insertOp t k d) := (insertGo_spec k d t h).1

/-- Height-tracking deletion preserves the balance invariant. -/
theorem deleteStd_WB (t : Tree α) (k : Nat) (h : WB t) :
    WB (deleteStd t k).1 := (deleteStd_spec k t h).1

/-- A miss leaves the spec-literal deletion pipeline without any effect:
no payload, no tree change, no propagation, no rotation. -/
theorem deleteSL_miss (k : Nat) : ∀ t : Tree α, hasKey t k = false →
    deleteSL t k = (none, t, false, 0)
  | .leaf, _ => rfl
  | .node l k0 d0 b r, h => by
    by_cases h1 : k < k0
    · rw [hasKey, if_pos h1] at h
      have ih := deleteSL_miss k l h
      simp [deleteSL, h1, ih]
    · by_cases h2 : k0 < k
      · rw [hasKey, if_neg h1, if_pos h2] at h
        have ih := deleteSL_miss k r h
        simp [deleteSL, h1, h2, ih]
      · rw [hasKey, if_neg h1, if_neg h2] at h
        cases h

/-- A duplicate key makes the host reject the insertion and the facade
skip the propagation: the tree comes back untouched. -/
theorem insertGo_dup (k : Nat) (d : α) : ∀ t : Tree α, hasKey t k = true →
    insertGo t k d = (t, false)
  | .leaf, h => by cases h
  | .node l k0 d0 b r, h => by
    by_cases h1 : k < k0
    · rw [hasKey, if_pos h1] at h
      have ih := insertGo_dup k d l h
      simp [insertGo, h1, ih]
    · by_cases h2 : k0 < k
      · rw [hasKey, if_neg h1, if_pos h2] at h
        have ih := insertGo_dup k d r h
        simp [insertGo, h1, h2, ih]
      · simp [insertGo, h1, h2]

/-- The extracted entry of the spec-literal minimum extraction is the
in-order first entry of the subtree. -/
theorem delMinSL_entry : ∀ (ll : Tree α) (lk : Nat) (ld : α) (lb : Int)
    (lr : Tree α),
    some (delMinSL ll lk ld lb lr).1 = minEntry (.node ll lk ld lb lr)
  | .leaf, _, _, _, _ => rfl
  | .node a ak ad ab c, lk, ld, lb, lr => by
    have ih := delMinSL_entry a ak ad ab c
    have hm : minEntry (.node (.node a ak ad ab c) lk ld lb lr) =
        minEntry (.node a ak ad ab c) := rfl
    rw [hm, ← ih]
    cases hf : (delMinSL a ak ad ab c).2.2.1 <;> simp [delMinSL, hf]

/-- The payload handed back by the deletion pipeline: the located node's
entry when it has at most one child, the in-order successor's entry (the
substitution overwrote the located node) when it has two. -/
theorem deleteSL_payload {k : Nat} :
    ∀ {t : Tree α} {l r : Tree α} {k0 : Nat} {d0 : α} {b : Int},
    locate t k = some (.node l k0 d0 b r) →
    (deleteSL t k).1 =
      (if isLeaf l || isLeaf r then some (k0, d0) else minEntry r) := by
  intro t
  induction t with
  | leaf => intro l r k0 d0 b h; simp [locate] at h
  | node tl tk td tb tr ihl ihr =>
    intro l r k0 d0 b h
    by_cases h1 : k < tk
    · rw [locate, if_pos h1] at h
      have := ihl h
      cases hf : (deleteSL tl k).2.2.1 <;>
        simpa [deleteSL, h1, hf] using this
    · by_cases h2 : tk < k
      · rw [locate, if_neg h1, if_pos h2] at h
        have := ihr h
        cases hf : (deleteSL tr k).2.2.1 <;>
          simpa [deleteSL, h1, h2, hf] using this
      · rw [locate, if_neg h1, if_neg h2] at h
        rw [Option.some_inj] at h
        cases h
        match tl, tr with
        | .leaf, _ => simp [deleteSL, h1, h2, isLeaf]
        | .node al alk ald alb alr, .leaf => simp [deleteSL, h1, h2, isLeaf]
        | .node al alk ald alb alr, .node rl rk rd rb rr =>
          have hne : ¬((isLeaf (Tree.node al alk ald alb alr : Tree α) ||
              isLeaf (Tree.node rl rk rd rb rr : Tree α)) = true) := by
            simp [isLeaf]
          rw [if_neg hne, ← delMinSL_entry rl rk rd rb rr]
          cases hf : (delMinSL rl rk rd rb rr).2.2.1 <;>
            simp [deleteSL, h1, h2, hf]

end Tree

/-! ### Claim theorems -/

open Tree

/-- Helper: the fold in `runStd` keeps the balance invariant. -/
theorem runStd_loop (ops : List Op) : ∀ t : Tree Unit, WB t →
    WB (ops.foldl
      (fun t op =>
        match op with
        | .ins k => Tree.insertOp t k ()
        | .del k => (Tree.deleteStd t k).1)
      t)
  | t, h => by
    induction ops generalizing t with
    | nil => simpa using h
    | cons op ops ih =>
      rw [List.foldl_cons]
      apply ih
      cases op with
      | ins k => exact insertOp_WB t k () h
      | del k => exact deleteStd_WB t k h

/-- C1 (amended): for every sequence of insert and delete operations
starting from the empty tree, every node's stored balance factor equals
height(right) − height(left) recomputed by brute force and lies in
`{-1, 0, +1}` — provided the post-deletion propagation stops on an
adjusted balance of `±1`, continues on `0`, and continues after a
rotation exactly when the rotation lowered the subtree height (the
height-tracking rules, which swap the stop conditions §4.3 literally
states for deletion). -/
theorem balance_invariant_insert_delete (ops : List Op) :
    WB (runStd ops) := by
  unfold runStd
  exact runStd_loop ops .leaf trivial

/-- C1 (counterexample): with the post-deletion stop rules exactly as
§4.3 states them (continue on `±1`, stop on `0`), the operation sequence
insert 10, 5, 20, 3, 7 then delete 3 leaves the root's stored balance
factor at `0` while the recomputed factor is `-1`: the invariant P2 fails
after a deletion, though it still holds under the height-tracking
rules. -/
theorem spec_literal_deletion_breaks_balance :
    ¬ WB (runSL [.ins 10, .ins 5, .ins 20, .ins 3, .ins 7, .del 3]) ∧
    WB (runStd [.ins 10, .ins 5, .ins 20, .ins 3, .ins 7, .del 3]) := by
  decide

/-- C3 (counterexample): in the tree built by inserting the payloads 10,
5, 20 under their own keys, the key 10 is present with payload 10, yet
`delete(10)` — whose located node has two children, so the host
substitutes the in-order successor and overwrites the located node's
payload before the facade reads `node.data` — returns the successor's
payload 20, not the original payload 10. -/
theorem delete_returns_substituted_payload :
    hasKey (insertOp (insertOp (insertOp (.leaf : Tree Nat) 10 10) 5 5) 20 20)
        10 = true ∧
    (deleteOp (insertOp (insertOp (insertOp (.leaf : Tree Nat) 10 10) 5 5) 20 20)
        10).1 = some 20 ∧
    (deleteOp (insertOp (insertOp (insertOp (.leaf : Tree Nat) 10 10) 5 5) 20 20)
        10).1 ≠ some 10 := by
  decide

/-- C3 (amended): `delete(value)` returns the payload the located node
holds when the operation returns: the original payload whenever the
located node has at most one child, and the in-order successor's payload
(which the host's substitution wrote over the located node) when it has
two children. -/
theorem delete_payload_characterisation {t : Tree α} {k k0 : Nat} {d0 : α}
    {l r : Tree α} {b : Int}
    (h : locate t k = some (.node l k0 d0 b r)) :
    (deleteOp t k).1 =
      (if isLeaf l || isLeaf r then some d0 else
        (minEntry r).map (fun p => p.2)) := by
  have hpl := deleteSL_payload h
  simp only [deleteOp]
  rw [hpl]
  cases hc : (isLeaf l || isLeaf r) <;> simp [hc]

/-- C4: a `delete` whose binary search misses, and a `deleteNode` whose
locator callback matches no node, both return `null` and leave the tree
— links and balance factors alike — exactly as it was. -/
theorem miss_deletes_are_noops (t : Tree α) (k : Nat) (cb : Nat → α → Int) :
    (hasKey t k = false → deleteOp t k = (none, t)) ∧
    (binSearchNode t cb = none → deleteNodeOp t cb = (none, t)) := by
  constructor
  · intro h
    simp only [deleteOp, deleteSL_miss k t h]
    rfl
  · intro h
    simp only [deleteNodeOp, h]

/-- C5: the §4.3 post-deletion propagation does not stop at a rotation —
whenever the adjusted balance reaches `±2` the step rotates and reports
`true`, so the walk continues from the spliced subtree's parent; and
concretely, deleting 12 from the 12-node Fibonacci-shaped tree obtained
by the listed insertions performs rotations at two distinct levels in a
single deletion. -/
theorem deletion_propagation_continues_after_rotation :
    (∀ (α : Type) (l1 r : Tree α) (k : Nat) (d : α) (b : Int), b + 1 = 2 →
      (balLshrunkSL l1 k d b r).2.1 = true ∧ (balLshrunkSL l1 k d b r).2.2 = 1) ∧
    (∀ (α : Type) (l r1 : Tree α) (k : Nat) (d : α) (b : Int), b - 1 = -2 →
      (balRshrunkSL l k d b r1).2.1 = true ∧ (balRshrunkSL l k d b r1).2.2 = 1) ∧
    (deleteSL (runSL ([8, 5, 11, 3, 7, 10, 12, 2, 4, 6, 9, 1].map .ins))
        12).2.2.2 = 2 := by
  refine ⟨?_, ?_, by decide⟩
  · intro α l1 r k d b hb
    have hb1 : b = 1 := by omega
    subst hb1
    constructor <;> simp [balLshrunkSL]
  · intro α l r1 k d b hb
    have hb1 : b = -1 := by omega
    subst hb1
    constructor <;> simp [balRshrunkSL]

/-- C6: when the value search of `delete` and the callback search of
`deleteNode` locate the same node, the two entry points leave the tree in
the same final state — both run the single spec-described post-deletion
propagation after the same physical unlink. -/
theorem delete_deleteNode_same_tree (t : Tree α) (k : Nat)
    (cb : Nat → α → Int) (h : binSearchNode t cb = some k) :
    (deleteNodeOp t cb).2 = (deleteOp t k).2 := by
  simp only [deleteNodeOp, deleteOp, h]
  cases hq : (deleteSL t k).1 <;> simp [hq]

/-- C7: `insert` hands back the tree itself, and on a duplicate key —
which the spec-modelled host rejects by returning `null` — it runs no
propagation and leaves the tree exactly unchanged. -/
theorem insert_duplicate_is_noop (t : Tree α) (k : Nat) (d : α)
    (h : hasKey t k = true) : insertOp t k d = t := by
  unfold insertOp
  rw [insertGo_dup k d t h]

/-- C8: whatever node `deleteNode` removes, the object it hands back has
its parent, left-child and right-child references cleared to `null` and
its balance factor reset to `0`. -/
theorem deleteNode_returns_detached (t : Tree α) (cb : Nat → α → Int)
    (d : DetachedNode α) (t2 : Tree α)
    (h : deleteNodeOp t cb = (some d, t2)) :
    d.prev = none ∧ d.left = none ∧ d.right = none ∧ d.balance = 0 := by
  cases hbs : binSearchNode t cb with
  | none => simp only [deleteNodeOp, hbs] at h; simp at h
  | some k =>
    cases hq : (deleteSL t k).1 with
    | none =>
      simp only [deleteNodeOp, hbs, hq] at h
      simp at h
    | some p =>
      simp only [deleteNodeOp, hbs, hq] at h
      simp only [Prod.mk.injEq, Option.some_inj] at h
      obtain ⟨hd, _⟩ := h
      rw [← hd]
      exact ⟨rfl, rfl, rfl, rfl⟩

/-- C9: the id resolution of `insert` lets a truthy `id` property of the
payload silently override the explicit id argument; the argument only
takes effect when the payload carries no truthy id. -/
theorem payload_id_overrides_argument (p : Payload) (i : JSPrim) :
    (p.pid.truthy = true → resolvedId p i = p.pid) ∧
    (p.pid.truthy = false → resolvedId p i = i) := by
  constructor <;> intro h <;> simp [resolvedId, h]

/-- C10: the `root` getter evaluates `this._root?.data || null`, so a
non-empty tree whose root payload is falsy reads as `null`, exactly like
the empty tree; the payload comes through only when it is truthy. -/
theorem falsy_root_payload_reads_null (l r : Tree JSPrim) (k : Nat)
    (b : Int) (d : JSPrim) :
    (d.truthy = false → rootGetter (.node l k d b r) = JSPrim.jnull) ∧
    (d.truthy = true → rootGetter (.node l k d b r) = d) ∧
    rootGetter .leaf = JSPrim.jnull := by
  refine ⟨?_, ?_, rfl⟩ <;> intro h <;> simp [rootGetter, h]

/-! ### The copy pipeline -/

namespace Tree

variable {α : Type}

theorem okLo_of_lt {lo : Option Nat} {a b : Nat} (h : okLo lo a = true)
    (hab : a < b) : okLo lo b = true := by
  cases lo with
  | none => rfl
  | some x => simp [okLo] at h ⊢; omega

theorem okHi_of_gt {hi : Option Nat} {a b : Nat} (h : okHi hi a = true)
    (hba : b < a) : okHi hi b = true := by
  cases hi with
  | none => rfl
  | some y => simp [okHi] at h ⊢; omega

/-- The RotationEngine preserves the binary-search order between any
bounds: rotations only restructure, never reorder. -/
theorem rebalance_Bnd {lo hi : Option Nat} :
    ∀ {t : Tree α}, Bnd lo hi t → Bnd lo hi (rebalance t)
  | .leaf, _ => trivial
  | .node l k d b r, h => by
    obtain ⟨h1, h2, hbl, hbr⟩ := h
    by_cases hb2 : b = 2
    · subst hb2
      match r, hbr with
      | .leaf, hbr2 =>
        have he : rebalance (.node l k d 2 (.leaf : Tree α)) =
            .node l k d 2 .leaf := by simp [rebalance]
        rw [he]
        exact ⟨h1, h2, hbl, hbr2⟩
      | .node rl rk rd rb rr, ⟨hrk1, hrk2, hbrl, hbrr⟩ =>
        have hkrk : k < rk := by simpa [okLo] using hrk1
        by_cases hrb : 0 ≤ rb
        · have he : rebalance (.node l k d 2 (.node rl rk rd rb rr)) =
              reNode (reNode l k d rl) rk rd rr := by
            simp [rebalance, hrb]
          rw [he]
          exact ⟨okLo_of_lt h1 hkrk, hrk2,
            ⟨h1, by simp [okHi]; omega, hbl, hbrl⟩, hbrr⟩
        · match rl, hbrl with
          | .leaf, hbrl2 =>
            have he : rebalance (.node l k d 2
                  (.node .leaf rk rd rb rr)) =
                .node l k d 2 (.node .leaf rk rd rb rr) := by
              simp [rebalance, hrb]
            rw [he]
            exact ⟨h1, h2, hbl, hrk1, hrk2, hbrl2, hbrr⟩
          | .node a gk gd gb c, ⟨hgk1, hgk2, hba, hbc⟩ =>
            have hkgk : k < gk := by simpa [okLo] using hgk1
            have hgkrk : gk < rk := by simpa [okHi] using hgk2
            have he : rebalance (.node l k d 2
                  (.node (.node a gk gd gb c) rk rd rb rr)) =
                reNode (reNode l k d a) gk gd (reNode c rk rd rr) := by
              simp [rebalance, hrb]
            rw [he]
            exact ⟨okLo_of_lt h1 hkgk, okHi_of_gt hrk2 hgkrk,
              ⟨h1, by simp [okHi]; omega, hbl, hba⟩,
              ⟨by simp [okLo]; omega, hrk2, hbc, hbrr⟩⟩
    · by_cases hbm2 : b = -2
      · subst hbm2
        match l, hbl with
        | .leaf, hbl2 =>
          have he : rebalance (.node (.leaf : Tree α) k d (-2) r) =
              .node .leaf k d (-2) r := by simp [rebalance]
          rw [he]
          exact ⟨h1, h2, hbl2, hbr⟩
        | .node ll lk ld lb lr, ⟨hlk1, hlk2, hbll, hblr⟩ =>
          have hlkk : lk < k := by simpa [okHi] using hlk2
          by_cases hlb : lb ≤ 0
          · have he : rebalance (.node (.node ll lk ld lb lr) k d (-2) r) =
                reNode ll lk ld (reNode lr k d r) := by
              simp [rebalance, hlb]
            rw [he]
            exact ⟨hlk1, okHi_of_gt h2 hlkk, hbll,
              ⟨by simp [okLo]; omega, h2, hblr, hbr⟩⟩
          · match lr, hblr with
            | .leaf, hblr2 =>
              have he : rebalance (.node
                    (.node ll lk ld lb .leaf) k d (-2) r) =
                  .node (.node ll lk ld lb .leaf) k d (-2) r := by
                simp [rebalance, hlb]
              rw [he]
              exact ⟨h1, h2, ⟨hlk1, hlk2, hbll, hblr2⟩, hbr⟩
            | .node a gk gd gb c, ⟨hgk1, hgk2, hba, hbc⟩ =>
              have hlkgk : lk < gk := by simpa [okLo] using hgk1
              have hgkk : gk < k := by simpa [okHi] using hgk2
              have he : rebalance (.node
                    (.node ll lk ld lb (.node a gk gd gb c)) k d (-2) r) =
                  reNode (reNode ll lk ld a) gk gd (reNode c k d r) := by
                simp [rebalance, hlb]
              rw [he]
              exact ⟨okLo_of_lt hlk1 hlkgk, okHi_of_gt h2 hgkk,
                ⟨hlk1, by simp [okHi]; omega, hbll, hba⟩,
                ⟨by simp [okLo]; omega, h2, hbc, hbr⟩⟩
      · have he : rebalance (.node l k d b r) = .node l k d b r := by
          simp [rebalance, hb2, hbm2]
        rw [he]
        exact ⟨h1, h2, hbl, hbr⟩

/-- Insertion through the facade preserves the binary-search order. -/
theorem insertGo_Bnd (k : Nat) (d : α) : ∀ (t : Tree α) (lo hi : Option Nat),
    Bnd lo hi t → okLo lo k = true → okHi hi k = true →
    Bnd lo hi (insertGo t k d).1
  | .leaf, lo, hi, _, hk1, hk2 => ⟨hk1, hk2, trivial, trivial⟩
  | .node l k0 d0 b r, lo, hi, hb, hk1, hk2 => by
    obtain ⟨h1, h2, hbl, hbr⟩ := hb
    by_cases hc1 : k < k0
    · have ih := insertGo_Bnd k d l lo (some k0) hbl hk1
        (by simp [okHi]; omega)
      cases hp : (insertGo l k d).2 with
      | false =>
        have he : (insertGo (.node l k0 d0 b r) k d).1 =
            .node (insertGo l k d).1 k0 d0 b r := by
          simp [insertGo, hc1, hp]
        rw [he]; exact ⟨h1, h2, ih, hbr⟩
      | true =>
        by_cases hb0 : b - 1 = 0
        · have he : (insertGo (.node l k0 d0 b r) k d).1 =
              .node (insertGo l k d).1 k0 d0 0 r := by
            simp [insertGo, hc1, hp, hb0]
          rw [he]; exact ⟨h1, h2, ih, hbr⟩
        · by_cases hbm : b - 1 = -2
          · have he : (insertGo (.node l k0 d0 b r) k d).1 =
                rebalance (.node (insertGo l k d).1 k0 d0 (-2) r) := by
              simp [insertGo, hc1, hp, hb0, hbm]
            rw [he]
            exact rebalance_Bnd ⟨h1, h2, ih, hbr⟩
          · have he : (insertGo (.node l k0 d0 b r) k d).1 =
                .node (insertGo l k d).1 k0 d0 (b - 1) r := by
              simp [insertGo, hc1, hp, hb0, hbm]
            rw [he]; exact ⟨h1, h2, ih, hbr⟩
    · by_cases hc2 : k0 < k
      · have ih := insertGo_Bnd k d r (some k0) hi hbr
          (by simp [okLo]; omega) hk2
        cases hp : (insertGo r k d).2 with
        | false =>
          have he : (insertGo (.node l k0 d0 b r) k d).1 =
              .node l k0 d0 b (insertGo r k d).1 := by
            simp [insertGo, hc1, hc2, hp]
          rw [he]; exact ⟨h1, h2, hbl, ih⟩
        | true =>
          by_cases hb0 : b + 1 = 0
          · have he : (insertGo (.node l k0 d0 b r) k d).1 =
                .node l k0 d0 0 (insertGo r k d).1 := by
              simp [insertGo, hc1, hc2, hp, hb0]
            rw [he]; exact ⟨h1, h2, hbl, ih⟩
          · by_cases hbm : b + 1 = 2
            · have he : (insertGo (.node l k0 d0 b r) k d).1 =
                  rebalance (.node l k0 d0 2 (insertGo r k d).1) := by
                simp [insertGo, hc1, hc2, hp, hb0, hbm]
              rw [he]
              exact rebalance_Bnd ⟨h1, h2, hbl, ih⟩
            · have he : (insertGo (.node l k0 d0 b r) k d).1 =
                  .node l k0 d0 (b + 1) (insertGo r k d).1 := by
                simp [insertGo, hc1, hc2, hp, hb0, hbm]
              rw [he]; exact ⟨h1, h2, hbl, ih⟩
      · have he : (insertGo (.node l k0 d0 b r) k d).1 =
            .node l k0 d0 b r := by
          simp [insertGo, hc1, hc2]
        rw [he]; exact ⟨h1, h2, hbl, hbr⟩

/-- Rotations preserve the in-order listing exactly. -/
theorem rebalance_inorder : ∀ t : Tree α, inorder (rebalance t) = inorder t
  | .leaf => rfl
  | .node l k d b r => by
    by_cases hb2 : b = 2
    · subst hb2
      match r with
      | .leaf => simp [rebalance]
      | .node rl rk rd rb rr =>
        by_cases hrb : 0 ≤ rb
        · simp [rebalance, hrb, reNode, inorder]
        · match rl with
          | .leaf => simp [rebalance, hrb]
          | .node a gk gd gb c => simp [rebalance, hrb, reNode, inorder]
    · by_cases hbm : b = -2
      · subst hbm
        match l with
        | .leaf => simp [rebalance]
        | .node ll lk ld lb lr =>
          by_cases hlb : lb ≤ 0
          · simp [rebalance, hlb, reNode, inorder]
          · match lr with
            | .leaf => simp [rebalance, hlb]
            | .node a gk gd gb c => simp [rebalance, hlb, reNode, inorder]
      · simp [rebalance, hb2, hbm]

/-- The entry multiset after an insertion: unchanged on a duplicate key,
the new entry added otherwise. -/
theorem insertGo_entries (k : Nat) (d : α) : ∀ t : Tree α,
    ((inorder (insertGo t k d).1 : List (Nat × α)) : Multiset (Nat × α)) =
      (if hasKey t k then (inorder t : Multiset (Nat × α))
       else (k, d) ::ₘ (inorder t : Multiset (Nat × α)))
  | .leaf => by simp [insertGo, inorder, hasKey]
  | .node l k0 d0 b r => by
    by_cases hc1 : k < k0
    · have ihl := insertGo_entries k d l
      rw [show hasKey (.node l k0 d0 b r) k = hasKey l k from by
        simp [hasKey, hc1]]
      have key : inorder (insertGo (.node l k0 d0 b r) k d).1 =
          inorder (insertGo l k d).1 ++ (k0, d0) :: inorder r := by
        cases hp : (insertGo l k d).2 with
        | false => simp [insertGo, hc1, hp, inorder]
        | true =>
          by_cases hb0 : b - 1 = 0
          · simp [insertGo, hc1, hp, hb0, inorder]
          · by_cases hbm : b - 1 = -2
            · simp [insertGo, hc1, hp, hb0, hbm, rebalance_inorder, inorder]
            · simp [insertGo, hc1, hp, hb0, hbm, inorder]
      rw [key]
      rw [show (inorder (.node l k0 d0 b r) : Multiset (Nat × α)) =
          (inorder l : Multiset (Nat × α)) +
            (k0, d0) ::ₘ (inorder r : Multiset (Nat × α)) from by
        simp [inorder, Multiset.cons_coe, Multiset.coe_add]]
      rw [show ((inorder (insertGo l k d).1 ++ (k0, d0) :: inorder r :
            List (Nat × α)) : Multiset (Nat × α)) =
          ((inorder (insertGo l k d).1 : List (Nat × α)) :
            Multiset (Nat × α)) +
            (k0, d0) ::ₘ (inorder r : Multiset (Nat × α)) from by
        simp [Multiset.cons_coe, Multiset.coe_add]]
      cases hk : hasKey l k with
      | true =>
        rw [hk] at ihl; simp only [if_true, eq_self_iff_true] at ihl
        simp [ihl]
      | false =>
        rw [hk] at ihl; simp only [Bool.false_eq_true, if_false] at ihl
        rw [ihl, Multiset.cons_add]
        simp
    · by_cases hc2 : k0 < k
      · have ihr := insertGo_entries k d r
        rw [show hasKey (.node l k0 d0 b r) k = hasKey r k from by
          simp [hasKey, hc1, hc2]]
        have key : inorder (insertGo (.node l k0 d0 b r) k d).1 =
            inorder l ++ (k0, d0) :: inorder (insertGo r k d).1 := by
          cases hp : (insertGo r k d).2 with
          | false => simp [insertGo, hc1, hc2, hp, inorder]
          | true =>
            by_cases hb0 : b + 1 = 0
            · simp [insertGo, hc1, hc2, hp, hb0, inorder]
            · by_cases hbm : b + 1 = 2
              · simp [insertGo, hc1, hc2, hp, hb0, hbm, rebalance_inorder,
                  inorder]
              · simp [insertGo, hc1, hc2, hp, hb0, hbm, inorder]
        rw [key]
        rw [show (inorder (.node l k0 d0 b r) : Multiset (Nat × α)) =
            (inorder l : Multiset (Nat × α)) +
              (k0, d0) ::ₘ (inorder r : Multiset (Nat × α)) from by
          simp [Multiset.cons_coe, Multiset.coe_add, inorder]]
        rw [show ((inorder l ++ (k0, d0) :: inorder (insertGo r k d).1 :
              List (Nat × α)) : Multiset (Nat × α)) =
            (inorder l : Multiset (Nat × α)) +
              (k0, d0) ::ₘ ((inorder (insertGo r k d).1 : List (Nat × α)) :
                Multiset (Nat × α)) from by
          simp [Multiset.cons_coe, Multiset.coe_add]]
        cases hk : hasKey r k with
        | true =>
          rw [hk] at ihr; simp only [if_true, eq_self_iff_true] at ihr
          simp [ihr]
        | false =>
          rw [hk] at ihr; simp only [Bool.false_eq_true, if_false] at ihr
          rw [ihr, Multiset.cons_swap, Multiset.add_cons]
          simp
      · have hkk : k = k0 := by omega
        rw [show hasKey (.node l k0 d0 b r) k = true from by
          simp [hasKey, hc1, hc2]]
        rw [show (insertGo (.node l k0 d0 b r) k d).1 =
            .node l k0 d0 b r from by simp [insertGo, hc1, hc2]]
        simp

/-- Every entry of a bounded subtree has its key inside the bounds. -/
theorem Bnd_mem_bounds : ∀ {t : Tree α} {lo hi : Option Nat}, Bnd lo hi t →
    ∀ p : Nat × α, p ∈ inorder t → okLo lo p.1 = true ∧ okHi hi p.1 = true
  | .leaf, _, _, _, _, hp => absurd hp (by simp [inorder])
  | .node l k d b r, lo, hi, ⟨h1, h2, hbl, hbr⟩, p, hp => by
    rw [inorder, List.mem_append, List.mem_cons] at hp
    rcases hp with hp | hp | hp
    · obtain ⟨ha, hb⟩ := Bnd_mem_bounds hbl p hp
      have hlt : p.1 < k := by simpa [okHi] using hb
      exact ⟨ha, okHi_of_gt h2 hlt⟩
    · rw [hp]
      exact ⟨h1, h2⟩
    · obtain ⟨ha, hb⟩ := Bnd_mem_bounds hbr p hp
      have hgt : k < p.1 := by simpa [okLo] using ha
      exact ⟨okLo_of_lt h1 hgt, hb⟩

/-- The keys of a bounded subtree in symmetric order are strictly
increasing. -/
theorem Bnd_keys_sorted : ∀ {t : Tree α} {lo hi : Option Nat}, Bnd lo hi t →
    ((inorder t).map Prod.fst).Pairwise (· < ·)
  | .leaf, _, _, _ => by simp [inorder]
  | .node l k d b r, lo, hi, ⟨h1, h2, hbl, hbr⟩ => by
    have ihl := Bnd_keys_sorted hbl
    have ihr := Bnd_keys_sorted hbr
    rw [inorder, List.map_append, List.map_cons, List.pairwise_append]
    refine ⟨ihl, ?_, ?_⟩
    · rw [List.pairwise_cons]
      refine ⟨?_, ihr⟩
      intro x hx
      obtain ⟨p, hpm, rfl⟩ := List.mem_map.mp hx
      have := (Bnd_mem_bounds hbr p hpm).1
      simpa [okLo] using this
    · intro a ha x hx
      obtain ⟨p, hpm, rfl⟩ := List.mem_map.mp ha
      have hpa : p.1 < k := by
        simpa [okHi] using (Bnd_mem_bounds hbl p hpm).2
      rcases List.mem_cons.mp hx with rfl | hxm
      · exact hpa
      · obtain ⟨q, hqm, rfl⟩ := List.mem_map.mp hxm
        have hqk : k < q.1 := by
          simpa [okLo] using (Bnd_mem_bounds hbr q hqm).1
        omega

/-- In a bounded subtree the binary-search membership test agrees with
bare membership among the keys. -/
theorem hasKey_mem_iff : ∀ {t : Tree α} {lo hi : Option Nat}, Bnd lo hi t →
    ∀ k : Nat, (hasKey t k = true ↔ k ∈ (inorder t).map Prod.fst)
  | .leaf, _, _, _, k => by simp [hasKey, inorder]
  | .node l k0 d b r, lo, hi, ⟨h1, h2, hbl, hbr⟩, k => by
    rw [inorder, List.map_append, List.map_cons]
    by_cases hc1 : k < k0
    · rw [show hasKey (.node l k0 d b r) k = hasKey l k from by
        simp [hasKey, hc1]]
      rw [hasKey_mem_iff hbl k]
      constructor
      · intro h
        exact List.mem_append.mpr (Or.inl h)
      · intro h
        rcases List.mem_append.mp h with h | h
        · exact h
        · exfalso
          rcases List.mem_cons.mp h with rfl | h
          · omega
          · obtain ⟨q, hqm, hqe⟩ := List.mem_map.mp h
            have := (Bnd_mem_bounds hbr q hqm).1
            simp [okLo] at this
            omega
    · by_cases hc2 : k0 < k
      · rw [show hasKey (.node l k0 d b r) k = hasKey r k from by
          simp [hasKey, hc1, hc2]]
        rw [hasKey_mem_iff hbr k]
        constructor
        · intro h
          exact List.mem_append.mpr (Or.inr (List.mem_cons.mpr (Or.inr h)))
        · intro h
          rcases List.mem_append.mp h with h | h
          · exfalso
            obtain ⟨q, hqm, hqe⟩ := List.mem_map.mp h
            have := (Bnd_mem_bounds hbl q hqm).2
            simp [okHi] at this
            omega
          · rcases List.mem_cons.mp h with rfl | h
            · omega
            · exact h
      · have hkk : k = k0 := by omega
        subst hkk
        rw [show hasKey (.node l k d b r) k = true from by
          simp [hasKey, hc1, hc2]]
        simp

/-- The breadth-first queue walk lists exactly the entries of the queued
subtrees. -/
theorem bfsAux_entries : ∀ q : List (Tree α),
    ((bfsAux q : List (Nat × α)) : Multiset (Nat × α)) =
      (q.map (fun t => ((inorder t : List (Nat × α)) : Multiset (Nat × α)))).sum := by
  intro q
  induction q using bfsAux.induct with
  | case1 => simp [bfsAux]
  | case2 rest ih => simp [bfsAux, inorder, ih]
  | case3 l k d b r rest ih =>
    rw [show bfsAux (Tree.node l k d b r :: rest) =
        (k, d) :: bfsAux (rest ++ [l, r]) from by rw [bfsAux]]
    rw [show (((k, d) :: bfsAux (rest ++ [l, r]) : List (Nat × α)) :
        Multiset (Nat × α)) =
      (k, d) ::ₘ ((bfsAux (rest ++ [l, r]) : List (Nat × α)) :
        Multiset (Nat × α)) from by simp [Multiset.cons_coe]]
    rw [ih]
    simp only [List.map_append, List.map_cons, List.map_nil, List.sum_append,
      List.sum_cons, List.sum_nil, add_zero]
    rw [show ((inorder (Tree.node l k d b r) : List (Nat × α)) :
        Multiset (Nat × α)) =
      ((inorder l : List (Nat × α)) : Multiset (Nat × α)) +
        (k, d) ::ₘ ((inorder r : List (Nat × α)) : Multiset (Nat × α)) from by
      simp [inorder, Multiset.cons_coe, Multiset.coe_add]]
    simp only [← Multiset.singleton_add]
    abel

/-- The level-order listing of a tree carries the same entry multiset as
its in-order listing. -/
theorem bfsList_entries (t : Tree α) :
    ((bfsList t : List (Nat × α)) : Multiset (Nat × α)) =
      ((inorder t : List (Nat × α)) : Multiset (Nat × α)) := by
  rw [bfsList, bfsAux_entries]
  simp

/-- Folding facade insertions of a duplicate-free entry list over a
well-formed accumulator yields a well-formed tree holding the
accumulator's entries plus the list's. -/
theorem copyFold_spec : ∀ (li : List (Nat × α)) (acc : Tree α),
    Bnd none none acc → WB acc → (li.map Prod.fst).Nodup →
    (∀ p ∈ li, hasKey acc p.1 = false) →
    Bnd none none (li.foldl (fun a p => insertOp a p.1 p.2) acc) ∧
    WB (li.foldl (fun a p => insertOp a p.1 p.2) acc) ∧
    ((inorder (li.foldl (fun a p => insertOp a p.1 p.2) acc) :
        List (Nat × α)) : Multiset (Nat × α)) =
      ((inorder acc : List (Nat × α)) : Multiset (Nat × α)) + ↑li
  | [], acc, hB, hW, _, _ => ⟨hB, hW, by simp⟩
  | p :: li, acc, hB, hW, hnd, hfresh => by
    rw [List.map_cons, List.nodup_cons] at hnd
    obtain ⟨hp1, hnd2⟩ := hnd
    rw [List.foldl_cons]
    have hfk : hasKey acc p.1 = false := hfresh p (List.mem_cons_self p li)
    have hB2 : Bnd none none (insertOp acc p.1 p.2) :=
      insertGo_Bnd p.1 p.2 acc none none hB rfl rfl
    have hW2 : WB (insertOp acc p.1 p.2) := insertOp_WB acc p.1 p.2 hW
    have hE2 : ((inorder (insertOp acc p.1 p.2) : List (Nat × α)) :
        Multiset (Nat × α)) = p ::ₘ ↑(inorder acc) := by
      have hq := insertGo_entries p.1 p.2 acc
      rw [hfk] at hq
      simp only [Bool.false_eq_true, if_false] at hq
      simpa [insertOp] using hq
    have hfresh2 : ∀ q ∈ li, hasKey (insertOp acc p.1 p.2) q.1 = false := by
      intro q hq
      have hqlist : q.1 ∈ li.map Prod.fst := List.mem_map_of_mem Prod.fst hq
      have hkey : (↑((inorder (insertOp acc p.1 p.2)).map Prod.fst) :
          Multiset Nat) = p.1 ::ₘ ↑((inorder acc).map Prod.fst) := by
        rw [← Multiset.map_coe, hE2, Multiset.map_cons, Multiset.map_coe]
      cases hcur : hasKey (insertOp acc p.1 p.2) q.1 with
      | false => rfl
      | true =>
        exfalso
        have hmem := (hasKey_mem_iff hB2 q.1).mp hcur
        have hm2 : q.1 ∈ (p.1 ::ₘ (↑((inorder acc).map Prod.fst) :
            Multiset Nat)) := by
          rw [← hkey]
          simpa [Multiset.mem_coe] using hmem
        rcases Multiset.mem_cons.mp hm2 with he | hm3
        · exact hp1 (he ▸ hqlist)
        · have hacc : hasKey acc q.1 = true :=
            (hasKey_mem_iff hB q.1).mpr (by simpa [Multiset.mem_coe] using hm3)
          rw [hfresh q (List.mem_cons_of_mem p hq)] at hacc
          cases hacc
    obtain ⟨hB3, hW3, hE3⟩ :=
      copyFold_spec li (insertOp acc p.1 p.2) hB2 hW2 hnd2 hfresh2
    refine ⟨hB3, hW3, ?_⟩
    rw [hE3, hE2]
    rw [show ((p :: li : List (Nat × α)) : Multiset (Nat × α)) =
        p ::ₘ ↑li from by simp [Multiset.cons_coe]]
    simp only [← Multiset.singleton_add]
    abel

end Tree

/-- C2: the breadth-first copy rebuilds, from a fresh empty tree and
through the regular insertion-plus-propagation pipeline, a tree that
holds exactly the source's payload/id pairs and independently satisfies
the search-order and balance invariants; the functional model makes the
copy a pure value, so neither building it nor using it afterwards can
alter the source. -/
theorem copy_rebuilds_equivalent_tree (t : Tree α) (hB : BST t) (hW : WB t) :
    BST (copyOp t) ∧ WB (copyOp t) ∧
    ((inorder (copyOp t) : List (Nat × α)) : Multiset (Nat × α)) =
      ((inorder t : List (Nat × α)) : Multiset (Nat × α)) := by
  have hsrcWB : WB t := hW
  have hperm : (↑((bfsList t).map Prod.fst) : Multiset Nat) =
      ↑((inorder t).map Prod.fst) := by
    rw [← Multiset.map_coe, ← Multiset.map_coe, bfsList_entries]
  have hnI : ((inorder t).map Prod.fst).Nodup :=
    (Bnd_keys_sorted hB).imp (fun h => Nat.ne_of_lt h)
  have hnodup : ((bfsList t).map Prod.fst).Nodup := by
    rw [← Multiset.coe_nodup, hperm, Multiset.coe_nodup]
    exact hnI
  have hfresh : ∀ p ∈ bfsList t, hasKey (.leaf : Tree α) p.1 = false :=
    fun _ _ => rfl
  obtain ⟨h1, h2, h3⟩ :=
    copyFold_spec (bfsList t) .leaf trivial trivial hnodup hfresh
  refine ⟨h1, h2, ?_⟩
  rw [show copyOp t =
      (bfsList t).foldl (fun a p => insertOp a p.1 p.2) .leaf from rfl]
  rw [h3, bfsList_entries]
  simp [inorder]

/-! ### Witnesses -/

/-- Witness for C2 at the concrete three-node tree: the copy is a
search-ordered, balanced tree with the same payload/id pairs. -/
theorem copy_rebuilds_equivalent_tree_witness :
    Tree.BST (Tree.copyOp
      (Tree.insertOp (Tree.insertOp (Tree.insertOp (.leaf : Tree Nat) 10 10) 5 5)
        20 20)) ∧
    Tree.WB (Tree.copyOp
      (Tree.insertOp (Tree.insertOp (Tree.insertOp (.leaf : Tree Nat) 10 10) 5 5)
        20 20)) ∧
    ((Tree.inorder (Tree.copyOp
        (Tree.insertOp (Tree.insertOp (Tree.insertOp (.leaf : Tree Nat) 10 10) 5 5)
          20 20)) : List (Nat × Nat)) : Multiset (Nat × Nat)) =
      ((Tree.inorder
        (Tree.insertOp (Tree.insertOp (Tree.insertOp (.leaf : Tree Nat) 10 10) 5 5)
          20 20) : List (Nat × Nat)) : Multiset (Nat × Nat)) :=
  copy_rebuilds_equivalent_tree
    (Tree.insertOp (Tree.insertOp (Tree.insertOp (.leaf : Tree Nat) 10 10) 5 5)
      20 20)
    (by decide) (by decide)

/-- Witness for C3's amended theorem at the concrete three-node tree:
deleting the two-child root 10 returns the successor payload 20. -/
theorem delete_payload_characterisation_witness :
    (Tree.deleteOp
      (Tree.insertOp (Tree.insertOp (Tree.insertOp (.leaf : Tree Nat) 10 10) 5 5)
        20 20) 10).1 =
      (if Tree.isLeaf (Tree.node .leaf 5 5 0 .leaf) ||
          Tree.isLeaf (Tree.node .leaf 20 20 0 .leaf)
       then some 10
       else (Tree.minEntry (Tree.node .leaf 20 20 0 .leaf)).map (fun p => p.2)) :=
  @delete_payload_characterisation Nat
    (Tree.insertOp (Tree.insertOp (Tree.insertOp (.leaf : Tree Nat) 10 10) 5 5)
      20 20)
    10 10 10 (.node .leaf 5 5 0 .leaf) (.node .leaf 20 20 0 .leaf) 0 (by decide)

/-- Witness for C4 at a singleton tree: a value miss and a
callback miss both return null and leave the tree unchanged. -/
theorem miss_deletes_are_noops_witness :
    Tree.deleteOp (Tree.insertOp (.leaf : Tree Nat) 1 1) 2 =
      (none, Tree.insertOp (.leaf : Tree Nat) 1 1) ∧
    Tree.deleteNodeOp (Tree.insertOp (.leaf : Tree Nat) 1 1) (fun _ _ => 1) =
      (none, Tree.insertOp (.leaf : Tree Nat) 1 1) :=
  ⟨(miss_deletes_are_noops (Tree.insertOp .leaf 1 1) 2 (fun _ _ => 1)).1 (by decide),
   (miss_deletes_are_noops (Tree.insertOp .leaf 1 1) 2 (fun _ _ => 1)).2 (by rfl)⟩

/-- Witness for C5's general step clauses at a concrete `±2` node. -/
theorem deletion_propagation_continues_witness :
    ((Tree.balLshrunkSL (.leaf : Tree Unit) 0 () 1 .leaf).2.1 = true ∧
     (Tree.balLshrunkSL (.leaf : Tree Unit) 0 () 1 .leaf).2.2 = 1) ∧
    ((Tree.balRshrunkSL (.leaf : Tree Unit) 0 () (-1) .leaf).2.1 = true ∧
     (Tree.balRshrunkSL (.leaf : Tree Unit) 0 () (-1) .leaf).2.2 = 1) :=
  ⟨deletion_propagation_continues_after_rotation.1 Unit .leaf .leaf 0 () 1
      (by decide),
   deletion_propagation_continues_after_rotation.2.1 Unit .leaf .leaf 0 () (-1)
      (by decide)⟩

/-- Witness for C6 at the three-node tree: locating the root 10 through a
node callback and deleting it leaves the same tree as `delete(10)`. -/
theorem delete_deleteNode_same_tree_witness :
    (Tree.deleteNodeOp
       (Tree.insertOp (Tree.insertOp (Tree.insertOp (.leaf : Tree Nat) 10 10) 5 5)
         20 20)
       (fun k _ => if k = 10 then 0 else if k < 10 then -1 else 1)).2 =
    (Tree.deleteOp
       (Tree.insertOp (Tree.insertOp (Tree.insertOp (.leaf : Tree Nat) 10 10) 5 5)
         20 20) 10).2 :=
  delete_deleteNode_same_tree _ 10 _ (by rfl)

/-- Witness for C7: re-inserting the key 7 with a fresh payload leaves
the singleton tree untouched. -/
theorem insert_duplicate_is_noop_witness :
    Tree.insertOp (Tree.insertOp (.leaf : Tree Nat) 7 7) 7 99 =
      Tree.insertOp (.leaf : Tree Nat) 7 7 :=
  insert_duplicate_is_noop (Tree.insertOp .leaf 7 7) 7 99 (by decide)

/-- Witness for C8: deleting the leaf 5 from the three-node tree hands
back a fully cleared node object. -/
theorem deleteNode_returns_detached_witness :
    (⟨5, 5, 0, none, none, none⟩ : Tree.DetachedNode Nat).prev = none ∧
    (⟨5, 5, 0, none, none, none⟩ : Tree.DetachedNode Nat).left = none ∧
    (⟨5, 5, 0, none, none, none⟩ : Tree.DetachedNode Nat).right = none ∧
    (⟨5, 5, 0, none, none, none⟩ : Tree.DetachedNode Nat).balance = 0 :=
  deleteNode_returns_detached
    (Tree.insertOp (Tree.insertOp (Tree.insertOp (.leaf : Tree Nat) 10 10) 5 5)
      20 20)
    (fun k _ => if k = 5 then 0 else if k < 5 then -1 else 1)
    ⟨5, 5, 0, none, none, none⟩
    (.node .leaf 10 10 1 (.node .leaf 20 20 0 .leaf))
    (by decide)

/-- Witness for C9: a payload with id `"a"` overrides the argument
`"x"`; a payload with an undefined id lets `"x"` through. -/
theorem payload_id_overrides_argument_witness :
    resolvedId ⟨.jnum 5, .jstr "a"⟩ (.jstr "x") = .jstr "a" ∧
    resolvedId ⟨.jnum 5, .jundef⟩ (.jstr "x") = .jstr "x" :=
  ⟨(payload_id_overrides_argument ⟨.jnum 5, .jstr "a"⟩ (.jstr "x")).1 (by decide),
   (payload_id_overrides_argument ⟨.jnum 5, .jundef⟩ (.jstr "x")).2 (by decide)⟩

/-- Witness for C10: a root payload `0` reads as null, a root payload
`7` comes through. -/
theorem falsy_root_payload_reads_null_witness :
    rootGetter (.node .leaf 1 (.jnum 0) 0 .leaf) = JSPrim.jnull ∧
    rootGetter (.node .leaf 1 (.jnum 7) 0 .leaf) = .jnum 7 :=
  ⟨(falsy_root_payload_reads_null .leaf .leaf 1 0 (.jnum 0)).1 (by decide),
   (falsy_root_payload_reads_null .leaf .leaf 1 0 (.jnum 7)).2.1 (by decide)⟩

end Graphworld
